import Mathlib

/-!
Verification of `scripts/gifwriter.py`: a minimal animated GIF89a writer.

The first half of this file is a shallow embedding of the Python source:
`lzw_encode` (the LZW compressor with its incremental bit buffer) and
`write_gif` (the container writer).  Byte values, palette indices and codes
are all modelled as `Nat`; the Python `bytes([b])` constructor, which raises
`ValueError` for `b ≥ 256`, is modelled by the `Except` error path.  The
output sink is modelled by the list of bytes written before success or
before the first error (the Python `with open(...)` closes but does not
delete the file, so those bytes are exactly what remains on disk).

The second half states and proves the properties under scrutiny.
-/

namespace GifWriter

/-- One byte assembled from the first 8 entries of a bit list, least
significant bit first; mirrors `sum((chunk_bits.pop(0) & 1) << i for i in
range(8))` in `flush_bits`. -/
def byteOfBits (bits : List Nat) : Nat :=
  ((List.range 8).map (fun i => (bits.getD i 0 &&& 1) <<< i)).sum

/-- The `w` low-order bits of code `c`, least significant first; mirrors the
loop body of `write_code`. -/
def codeBits (c w : Nat) : List Nat :=
  (List.range w).map (fun b => (c >>> b) &&& 1)

/-- Fuel-indexed body of `flush_bits`; the fuel bounds the number of loop
iterations and is always instantiated with `bits.length`, which suffices
because every iteration removes 8 bits. -/
def flushBitsAux : Nat → List Nat → List Nat → List Nat × List Nat
  | 0, res, bits => (res, bits)
  | fuel + 1, res, bits =>
    if 8 ≤ bits.length then
      flushBitsAux fuel (res ++ [byteOfBits bits]) (bits.drop 8)
    else
      (res, bits)

/-- `flush_bits`: while at least 8 bits are buffered, pop 8 of them and
append the assembled byte to the result. -/
def flushBits (res : List Nat) (bits : List Nat) : List Nat × List Nat :=
  flushBitsAux bits.length res bits

/-- The mutable state of one `lzw_encode` pass: the dictionary (an
association list mirroring the Python dict, most recent insertion first),
the current prefix, `next_code`, `code_size`, the bit buffer and the output
bytes accumulated so far. -/
structure EncSt where
  table : List (List Nat × Nat)
  pfx : List Nat
  nextCode : Nat
  codeSize : Nat
  chunkBits : List Nat
  result : List Nat
deriving DecidableEq, Repr

/-- `write_code`: append the `code_size` bits of `c` to the bit buffer and
flush complete bytes. -/
def writeCodeSt (s : EncSt) (c : Nat) : EncSt :=
  let fr := flushBits s.result (s.chunkBits ++ codeBits c s.codeSize)
  { s with result := fr.1, chunkBits := fr.2 }

/-- The state of `lzw_encode` after its setup lines: the table seeded with
all 256 single-byte strings (the Python source seeds `range(256)`
independently of `min_bits`), and the clear code already written. -/
def lzwInit (minBits : Nat) : EncSt :=
  writeCodeSt
    { table := (List.range 256).map (fun i => ([i], i))
      pfx := []
      nextCode := (1 <<< minBits) + 2
      codeSize := minBits + 1
      chunkBits := []
      result := [] }
    (1 <<< minBits)

/-- One iteration of the `for byte in data` loop.  `bytes([byte])` raises
`ValueError` when `byte ≥ 256`, modelled as the error case. -/
def lzwStep (s : EncSt) (b : Nat) : Except Unit EncSt :=
  if 256 ≤ b then Except.error () else
  let np := s.pfx ++ [b]
  if (s.table.lookup np).isSome then
    Except.ok { s with pfx := np }
  else
    let s1 := writeCodeSt s ((s.table.lookup s.pfx).getD 0)
    let s2 :=
      if s1.nextCode ≤ 4095 then
        { s1 with
            table := (np, s1.nextCode) :: s1.table
            nextCode := s1.nextCode + 1
            codeSize :=
              if 1 <<< s1.codeSize < s1.nextCode + 1 then
                min 12 (s1.codeSize + 1)
              else s1.codeSize }
      else s1
    Except.ok { s2 with pfx := [b] }

/-- The `for byte in data` loop itself. -/
def encodeLoop : EncSt → List Nat → Except Unit EncSt
  | s, [] => Except.ok s
  | s, b :: rest =>
    match lzwStep s b with
    | Except.error e => Except.error e
    | Except.ok s2 => encodeLoop s2 rest

/-- The last two lines of `lzw_encode`: zero-pad a non-empty bit buffer to
8 bits, flush it, and return the result bytes. -/
def finishFlush (s : EncSt) : List Nat :=
  if s.chunkBits.isEmpty then s.result
  else (flushBits s.result (s.chunkBits ++ List.replicate (8 - s.chunkBits.length) 0)).1

/-- The tail of `lzw_encode`: emit the pending prefix (if any), emit
`end_code`, zero-pad a non-empty bit buffer to 8 bits and flush it. -/
def lzwFinish (minBits : Nat) (s : EncSt) : List Nat :=
  finishFlush
    (writeCodeSt
      (if s.pfx.isEmpty then s else writeCodeSt s ((s.table.lookup s.pfx).getD 0))
      ((1 <<< minBits) + 1))

/-- `lzw_encode(data, min_bits)`: the returned byte list, or the propagated
`ValueError`. -/
def lzwEncode (data : List Nat) (minBits : Nat) : Except Unit (List Nat) :=
  (encodeLoop (lzwInit minBits) data).map (lzwFinish minBits)

/-! ### Specification-side model of the encoder

Following the spec's description of §4.1: the encoder is described as first
producing the sequence of (code, width) pairs — clear code, the greedy
longest-match body, the pending prefix, the end code — and then packing all
their bits least-significant-bit-first into bytes, zero-padding the final
partial byte.  The refinement theorem for C3 identifies `lzwEncode` (which
interleaves packing with code emission through its mutable bit buffer) with
this two-phase description. -/

/-- Spec-side encoder state: like `EncSt` but recording the emitted
(code, width) pairs instead of packed bytes. -/
structure SpecSt where
  table : List (List Nat × Nat)
  pfx : List Nat
  nextCode : Nat
  codeSize : Nat
  codes : List (Nat × Nat)
deriving DecidableEq, Repr

/-- Emit one code at the current code width. -/
def emitCode (t : SpecSt) (c : Nat) : SpecSt :=
  { t with codes := t.codes ++ [(c, t.codeSize)] }

/-- Spec-side per-byte step: extend the prefix on a dictionary hit;
otherwise emit the prefix code, grow the table (when below 4096) and widen
the code, and restart the prefix from the incoming byte. -/
def specStep (t : SpecSt) (b : Nat) : SpecSt :=
  let np := t.pfx ++ [b]
  if (t.table.lookup np).isSome then
    { t with pfx := np }
  else
    let t1 := emitCode t ((t.table.lookup t.pfx).getD 0)
    let t2 :=
      if t1.nextCode ≤ 4095 then
        { t1 with
            table := (np, t1.nextCode) :: t1.table
            nextCode := t1.nextCode + 1
            codeSize :=
              if 1 <<< t1.codeSize < t1.nextCode + 1 then
                min 12 (t1.codeSize + 1)
              else t1.codeSize }
      else t1
    { t2 with pfx := [b] }

def specLoop : SpecSt → List Nat → SpecSt
  | t, [] => t
  | t, b :: rest => specLoop (specStep t b) rest

/-- Spec-side initial state, with the clear code already emitted. -/
def specInit (minBits : Nat) : SpecSt :=
  emitCode
    { table := (List.range 256).map (fun i => ([i], i))
      pfx := []
      nextCode := (1 <<< minBits) + 2
      codeSize := minBits + 1
      codes := [] }
    (1 <<< minBits)

/-- The complete (code, width) sequence of one encode pass: clear code,
body, the code of any pending non-empty prefix, then the end code. -/
def specCodes (data : List Nat) (minBits : Nat) : List (Nat × Nat) :=
  let t := specLoop (specInit minBits) data
  let t1 := if t.pfx.isEmpty then t else emitCode t ((t.table.lookup t.pfx).getD 0)
  (emitCode t1 ((1 <<< minBits) + 1)).codes

/-- All bits of a (code, width) sequence, in emission order, least
significant bit of each code first. -/
def allBits (codes : List (Nat × Nat)) : List Nat :=
  codes.flatMap (fun cw => codeBits cw.1 cw.2)

/-- Fuel-indexed body of `packLSBFirst`; the fuel is always instantiated
with `bits.length`, which suffices because every step drops 8 bits from a
non-empty list. -/
def packLSBFirstAux : Nat → List Nat → List Nat
  | 0, _ => []
  | fuel + 1, bits =>
    if bits.isEmpty then []
    else byteOfBits (bits ++ List.replicate (8 - bits.length) 0) :: packLSBFirstAux fuel (bits.drop 8)

/-- Pack a bit sequence least-significant-bit-first into bytes, zero-padding
the final partial byte to 8 bits. -/
def packLSBFirst (bits : List Nat) : List Nat :=
  packLSBFirstAux bits.length bits

/-- The spec-side result of one encode pass: emit all codes, then pack their
bits. -/
def lzwSpec (data : List Nat) (minBits : Nat) : List Nat :=
  packLSBFirst (allBits (specCodes data minBits))

/-! ### The container writer `write_gif` -/

/-- `struct.pack("<H", n)`: two bytes, little endian.  (The Python call
raises `struct.error` for `n ≥ 65536`; theorems that depend on these fields
assume in-range values.) -/
def pack16 (n : Nat) : List Nat :=
  [n % 256, n / 256 % 256]

/-- The 768-byte global color table: the first `min 256 (length palette)`
RGB triples of the palette (the source iterates over `palette[:256]`),
written into a zero-initialised `bytearray(768)`. -/
def palBytes (palette : List (Nat × Nat × Nat)) : List Nat :=
  (palette.take 256).flatMap (fun c => [c.1, c.2.1, c.2.2])
    ++ List.replicate (768 - 3 * (palette.take 256).length) 0

/-- The Netscape application extension requesting infinite looping. -/
def netscapeExt : List Nat :=
  [0x21, 0xFF, 0x0B, 78, 69, 84, 83, 67, 65, 80, 69, 50, 46, 48, 3, 1, 0, 0, 0]

/-- The graphic control extension emitted for every frame: introducer,
label, block size 4, packed byte `0x02`, the raw `duration_ms` value, the
transparent index and the terminator. -/
def gceBytes (duration transIdx : Nat) : List Nat :=
  [0x21, 0xF9, 0x04, 0x02] ++ pack16 duration ++ [transIdx, 0]

/-- The image descriptor: `0x2C`, position (0,0), width, height, packed 0. -/
def imageDescriptor (w h : Nat) : List Nat :=
  [0x2C] ++ pack16 0 ++ pack16 0 ++ pack16 w ++ pack16 h ++ pack16 0

/-- Fuel-indexed body of `subBlocks`; the fuel is always instantiated with
`l.length`, which suffices because every iteration consumes at least one
payload byte. -/
def subBlocksAux : Nat → List Nat → List Nat
  | 0, _ => []
  | fuel + 1, l =>
    if l.isEmpty then []
    else (l.take 255).length :: (l.take 255 ++ subBlocksAux fuel (l.drop 255))

/-- Split the compressed payload into length-prefixed sub-blocks of at most
255 bytes (the `while pos < len(compressed)` loop; the separate zero
terminator byte is appended by the caller). -/
def subBlocks (l : List Nat) : List Nat :=
  subBlocksAux l.length l

/-- The `for idx, frame in enumerate(frames)` loop.  `acc` is the byte
stream written so far.  For each frame the control block, image descriptor
and LZW minimum code size byte are written first; if `lzw_encode` then
raises, those bytes have already reached the sink and the loop aborts. -/
def writeFrames (w h duration transIdx : Nat) :
    List (List (List Nat)) → List Nat → List Nat × Option Unit
  | [], acc => (acc, none)
  | frame :: rest, acc =>
    let pre := acc ++ gceBytes duration transIdx ++ imageDescriptor w h ++ [8]
    match lzwEncode frame.flatten 8 with
    | Except.error e => (pre, some e)
    | Except.ok compressed =>
        writeFrames w h duration transIdx rest (pre ++ subBlocks compressed ++ [0])

/-- `write_gif(frames, palette, filepath, duration_ms, transparent_index)`.
Returns the bytes present on the sink when the call returns or raises,
paired with `some e` if it raised.  An empty frame list returns before the
file is opened; an empty first frame raises `IndexError` at
`len(frames[0][0])`, also before the file is opened. -/
def writeGif (frames : List (List (List Nat))) (palette : List (Nat × Nat × Nat))
    (duration transIdx : Nat) : List Nat × Option Unit :=
  match frames with
  | [] => ([], none)
  | firstFrame :: _ =>
    match firstFrame with
    | [] => ([], some ())
    | firstRow :: _ =>
      let H := firstFrame.length
      let W := firstRow.length
      let header := [71, 73, 70, 56, 57, 97] ++ pack16 W ++ pack16 H
        ++ [0xF7, 0, 0] ++ palBytes palette ++ netscapeExt
      match writeFrames W H duration transIdx frames header with
      | (bs, none) => (bs ++ [0x3B], none)
      | (bs, some e) => (bs, some e)

/-- A 256-entry all-black test palette. -/
def testPalette : List (Nat × Nat × Nat) :=
  List.replicate 256 (0, 0, 0)

/-- The disposal-method field (bits 2–4) of a graphic control extension
packed byte, per the GIF89a specification. -/
def gceDisposal (b : Nat) : Nat := b / 4 % 8

/-- The transparent-color flag (bit 0) of a graphic control extension
packed byte, per the GIF89a specification. -/
def gceTransparentFlag (b : Nat) : Nat := b % 2

/-- Fuel-indexed body of `parseSubBlocks`; the fuel is always instantiated
with the input length, which suffices because every block consumes its
length byte. -/
def parseSubBlocksAux : Nat → List Nat → Option (List (List Nat))
  | 0, _ => none
  | _ + 1, [] => none
  | _ + 1, 0 :: rest => if rest.isEmpty then some [] else none
  | fuel + 1, (n + 1) :: rest =>
    if rest.length < n + 1 then none
    else (parseSubBlocksAux fuel (rest.drop (n + 1))).map (fun bs => rest.take (n + 1) :: bs)

/-- Decoder-side view of a frame's image-data sub-block stream: read
length-prefixed blocks until the single zero length byte, which must be the
last byte of the section. -/
def parseSubBlocks (l : List Nat) : Option (List (List Nat)) :=
  parseSubBlocksAux l.length l

/-- Fuel-indexed body of `blocks255`. -/
def blocks255Aux : Nat → List Nat → List (List Nat)
  | 0, _ => []
  | fuel + 1, l =>
    if l.isEmpty then []
    else l.take 255 :: blocks255Aux fuel (l.drop 255)

/-- The payload chunks of the sub-block split: successive runs of at most
255 bytes. -/
def blocks255 (l : List Nat) : List (List Nat) :=
  blocks255Aux l.length l

instance {ε α : Type _} [DecidableEq ε] [DecidableEq α] : DecidableEq (Except ε α) :=
  fun x y =>
    match x, y with
    | Except.ok a, Except.ok b =>
        if h : a = b then isTrue (by rw [h]) else isFalse (by simp [h])
    | Except.error a, Except.error b =>
        if h : a = b then isTrue (by rw [h]) else isFalse (by simp [h])
    | Except.ok _, Except.error _ => isFalse (by simp)
    | Except.error _, Except.ok _ => isFalse (by simp)

/-! ### Bit-buffer infrastructure

`bytesPart bits` / `remPart bits` are the bytes a full flush of `bits`
produces and the under-8-bit remainder it leaves; they describe the net
effect of the incremental `flush_bits` discipline. -/

/-- Fuel-indexed: the complete bytes contained in a bit list. -/
def bytesPartAux : Nat → List Nat → List Nat
  | 0, _ => []
  | fuel + 1, l =>
    if 8 ≤ l.length then byteOfBits l :: bytesPartAux fuel (l.drop 8) else []

/-- The complete bytes contained in a bit list, LSB-first. -/
def bytesPart (l : List Nat) : List Nat :=
  bytesPartAux l.length l

/-- Fuel-indexed: the leftover bits after flushing all complete bytes. -/
def remPartAux : Nat → List Nat → List Nat
  | 0, l => l
  | fuel + 1, l =>
    if 8 ≤ l.length then remPartAux fuel (l.drop 8) else l

/-- The leftover bits (fewer than 8) after flushing all complete bytes. -/
def remPart (l : List Nat) : List Nat :=
  remPartAux l.length l

/-- The encoder state corresponding to a spec-side state: same dictionary,
prefix, `next_code` and `code_size`; the bit buffer and output bytes are
the flush of all bits emitted so far. -/
def mkEnc (t : SpecSt) : EncSt :=
  { table := t.table
    pfx := t.pfx
    nextCode := t.nextCode
    codeSize := t.codeSize
    chunkBits := remPart (allBits t.codes)
    result := bytesPart (allBits t.codes) }

/-- The state invariant maintained by every step of one encode pass, for a
GIF-legal minimum code size. -/
def encInv (mb : Nat) (s : EncSt) : Prop :=
  mb + 1 ≤ s.codeSize ∧ s.codeSize ≤ 12 ∧
  (1 <<< mb) + 2 ≤ s.nextCode ∧ s.nextCode ≤ 4096 ∧
  s.table.length + (1 <<< mb) + 2 = 256 + s.nextCode ∧
  (∀ p ∈ s.table, p.2 < 256 ∨ ((1 <<< mb) + 2 ≤ p.2 ∧ p.2 < s.nextCode))

/-- Apply a binary state predicate when both encode runs succeed; an aborted
run has no final state to inspect. -/
def okPair (x y : Except Unit EncSt) (P : EncSt → EncSt → Prop) : Prop :=
  match x, y with
  | Except.ok s, Except.ok s2 => P s s2
  | _, _ => True

theorem bytesPartAux_irrel (f1 : Nat) :
    ∀ (f2 : Nat) (l : List Nat), l.length ≤ f1 → l.length ≤ f2 →
      bytesPartAux f1 l = bytesPartAux f2 l := by
  induction f1 with
  | zero =>
    intro f2 l h1 _
    have hl : l = [] := List.length_eq_zero.mp (Nat.le_zero.mp h1)
    subst hl
    cases f2 <;> simp [bytesPartAux]
  | succ f ih =>
    intro f2 l h1 h2
    cases f2 with
    | zero =>
      have hl : l = [] := List.length_eq_zero.mp (Nat.le_zero.mp h2)
      subst hl
      simp [bytesPartAux]
    | succ f2 =>
      simp only [bytesPartAux]
      by_cases h : 8 ≤ l.length
      · rw [if_pos h, if_pos h, ih f2 (l.drop 8) (by simp; omega) (by simp; omega)]
      · rw [if_neg h, if_neg h]

theorem remPartAux_irrel (f1 : Nat) :
    ∀ (f2 : Nat) (l : List Nat), l.length ≤ f1 → l.length ≤ f2 →
      remPartAux f1 l = remPartAux f2 l := by
  induction f1 with
  | zero =>
    intro f2 l h1 _
    have hl : l = [] := List.length_eq_zero.mp (Nat.le_zero.mp h1)
    subst hl
    cases f2 <;> simp [remPartAux]
  | succ f ih =>
    intro f2 l h1 h2
    cases f2 with
    | zero =>
      have hl : l = [] := List.length_eq_zero.mp (Nat.le_zero.mp h2)
      subst hl
      simp [remPartAux]
    | succ f2 =>
      simp only [remPartAux]
      by_cases h : 8 ≤ l.length
      · rw [if_pos h, if_pos h, ih f2 (l.drop 8) (by simp; omega) (by simp; omega)]
      · rw [if_neg h, if_neg h]

theorem bytesPart_eq (l : List Nat) :
    bytesPart l = if 8 ≤ l.length then byteOfBits l :: bytesPart (l.drop 8) else [] := by
  by_cases h8 : 8 ≤ l.length
  · rw [if_pos h8]
    unfold bytesPart
    obtain ⟨n, hn⟩ : ∃ n, l.length = n + 1 := ⟨l.length - 1, by omega⟩
    rw [hn]
    simp only [bytesPartAux, if_pos h8]
    congr 1
    exact bytesPartAux_irrel n (l.drop 8).length (l.drop 8) (by simp; omega) le_rfl
  · rw [if_neg h8]
    unfold bytesPart
    cases hn : l.length with
    | zero => simp [bytesPartAux]
    | succ n => simp only [bytesPartAux, if_neg h8]

theorem remPart_eq (l : List Nat) :
    remPart l = if 8 ≤ l.length then remPart (l.drop 8) else l := by
  by_cases h8 : 8 ≤ l.length
  · rw [if_pos h8]
    unfold remPart
    obtain ⟨n, hn⟩ : ∃ n, l.length = n + 1 := ⟨l.length - 1, by omega⟩
    rw [hn]
    simp only [remPartAux, if_pos h8]
    exact remPartAux_irrel n (l.drop 8).length (l.drop 8) (by simp; omega) le_rfl
  · rw [if_neg h8]
    unfold remPart
    cases hn : l.length with
    | zero => simp [remPartAux]
    | succ n => simp only [remPartAux, if_neg h8]

theorem flushBitsAux_spec (fuel : Nat) :
    ∀ (res bits : List Nat), bits.length ≤ fuel →
      flushBitsAux fuel res bits = (res ++ bytesPart bits, remPart bits) := by
  induction fuel with
  | zero =>
    intro res bits h
    have hb : bits = [] := List.length_eq_zero.mp (Nat.le_zero.mp h)
    subst hb
    simp [flushBitsAux, bytesPart, remPart, bytesPartAux, remPartAux]
  | succ f ih =>
    intro res bits h
    rw [bytesPart_eq, remPart_eq]
    simp only [flushBitsAux]
    by_cases h8 : 8 ≤ bits.length
    · rw [if_pos h8, if_pos h8, if_pos h8, ih _ _ (by simp; omega)]
      simp
    · rw [if_neg h8, if_neg h8, if_neg h8]
      simp

theorem flushBits_spec (res bits : List Nat) :
    flushBits res bits = (res ++ bytesPart bits, remPart bits) :=
  flushBitsAux_spec bits.length res bits le_rfl

theorem byteOfBits_append (l l2 : List Nat) (h : 8 ≤ l.length) :
    byteOfBits (l ++ l2) = byteOfBits l := by
  unfold byteOfBits
  congr 1
  apply List.map_congr_left
  intro i hi
  rw [List.getD_append _ _ _ _ (by simp at hi; omega)]

theorem bytesPart_append_aux (n : Nat) :
    ∀ (B : List Nat), B.length ≤ n → ∀ (l : List Nat),
      bytesPart (B ++ l) = bytesPart B ++ bytesPart (remPart B ++ l) ∧
      remPart (B ++ l) = remPart (remPart B ++ l) := by
  induction n with
  | zero =>
    intro B h l
    have hb : B = [] := List.length_eq_zero.mp (Nat.le_zero.mp h)
    subst hb
    have h1 : remPart ([] : List Nat) = [] := by rw [remPart_eq]; simp
    have h2 : bytesPart ([] : List Nat) = [] := by rw [bytesPart_eq]; simp
    simp [h1, h2]
  | succ n ih =>
    intro B h l
    by_cases h8 : 8 ≤ B.length
    · have hd : (B ++ l).drop 8 = B.drop 8 ++ l := List.drop_append_of_le_length h8
      have h8' : 8 ≤ (B ++ l).length := by simp; omega
      have hBrem : remPart B = remPart (B.drop 8) := by rw [remPart_eq, if_pos h8]
      have hBbytes : bytesPart B = byteOfBits B :: bytesPart (B.drop 8) := by
        rw [bytesPart_eq, if_pos h8]
      have ihd := ih (B.drop 8) (by simp; omega) l
      constructor
      · rw [bytesPart_eq (B ++ l), if_pos h8', hd, byteOfBits_append _ _ h8,
          ihd.1, hBrem, hBbytes]
        simp
      · rw [remPart_eq (B ++ l), if_pos h8', hd, ihd.2, hBrem]
    · have hrB : remPart B = B := by rw [remPart_eq, if_neg h8]
      have hbB : bytesPart B = [] := by rw [bytesPart_eq, if_neg h8]
      simp [hrB, hbB]

theorem bytesPart_append (B l : List Nat) :
    bytesPart (B ++ l) = bytesPart B ++ bytesPart (remPart B ++ l) :=
  (bytesPart_append_aux B.length B le_rfl l).1

theorem remPart_append (B l : List Nat) :
    remPart (B ++ l) = remPart (remPart B ++ l) :=
  (bytesPart_append_aux B.length B le_rfl l).2

theorem remPart_length_lt (l : List Nat) : (remPart l).length < 8 := by
  generalize hn : l.length = n
  induction n using Nat.strong_induction_on generalizing l with
  | _ n ih =>
    rw [remPart_eq]
    by_cases h8 : 8 ≤ l.length
    · rw [if_pos h8]
      exact ih (l.length - 8) (by omega) (l.drop 8) (by simp [hn])
    · rw [if_neg h8]
      omega

/-! ### Refinement: `lzwEncode` against the two-phase spec model -/

theorem allBits_snoc (codes : List (Nat × Nat)) (c w : Nat) :
    allBits (codes ++ [(c, w)]) = allBits codes ++ codeBits c w := by
  simp [allBits]

theorem writeCodeSt_mkEnc (t : SpecSt) (c : Nat) :
    writeCodeSt (mkEnc t) c = mkEnc (emitCode t c) := by
  unfold writeCodeSt mkEnc emitCode
  simp only [flushBits_spec, allBits_snoc]
  rw [← bytesPart_append, ← remPart_append]

theorem lzwStep_mkEnc (t : SpecSt) (b : Nat) (hb : b < 256) :
    lzwStep (mkEnc t) b = Except.ok (mkEnc (specStep t b)) := by
  unfold lzwStep specStep
  rw [if_neg (by omega)]
  simp only [mkEnc]
  by_cases hl : ((t.table.lookup (t.pfx ++ [b])).isSome : Prop)
  · rw [if_pos hl, if_pos hl]
  · rw [if_neg hl, if_neg hl]
    have hw := writeCodeSt_mkEnc t ((t.table.lookup t.pfx).getD 0)
    simp only [mkEnc] at hw
    simp only [hw]
    by_cases hn : t.nextCode ≤ 4095
    · simp only [emitCode, if_pos hn]
    · simp only [emitCode, if_neg hn]

theorem encodeLoop_mkEnc (data : List Nat) :
    ∀ (t : SpecSt), (∀ b ∈ data, b < 256) →
      encodeLoop (mkEnc t) data = Except.ok (mkEnc (specLoop t data)) := by
  induction data with
  | nil => intro t _; rfl
  | cons b rest ih =>
    intro t h
    have hb : b < 256 := h b (by simp)
    simp only [encodeLoop, specLoop, lzwStep_mkEnc t b hb]
    exact ih (specStep t b) (fun x hx => h x (by simp [hx]))

theorem lzwInit_mkEnc (minBits : Nat) : lzwInit minBits = mkEnc (specInit minBits) := by
  unfold lzwInit specInit
  exact writeCodeSt_mkEnc
    ⟨(List.range 256).map (fun i => ([i], i)), [], (1 <<< minBits) + 2, minBits + 1, []⟩
    (1 <<< minBits)

theorem packLSBFirstAux_irrel (f1 : Nat) :
    ∀ (f2 : Nat) (l : List Nat), l.length ≤ f1 → l.length ≤ f2 →
      packLSBFirstAux f1 l = packLSBFirstAux f2 l := by
  induction f1 with
  | zero =>
    intro f2 l h1 _
    have hl : l = [] := List.length_eq_zero.mp (Nat.le_zero.mp h1)
    subst hl
    cases f2 <;> simp [packLSBFirstAux]
  | succ f ih =>
    intro f2 l h1 h2
    cases f2 with
    | zero =>
      have hl : l = [] := List.length_eq_zero.mp (Nat.le_zero.mp h2)
      subst hl
      simp [packLSBFirstAux]
    | succ f2 =>
      simp only [packLSBFirstAux]
      by_cases h : l.isEmpty
      · rw [if_pos h, if_pos h]
      · rw [if_neg h, if_neg h,
          ih f2 (l.drop 8) (by simp; cases l <;> simp_all; omega)
            (by simp; cases l <;> simp_all; omega)]

theorem packLSBFirst_eq (l : List Nat) :
    packLSBFirst l =
      if l.isEmpty then []
      else byteOfBits (l ++ List.replicate (8 - l.length) 0) :: packLSBFirst (l.drop 8) := by
  by_cases he : l.isEmpty
  · have hl : l = [] := by cases l <;> simp_all
    subst hl
    simp [packLSBFirst, packLSBFirstAux]
  · rw [if_neg he]
    unfold packLSBFirst
    obtain ⟨n, hn⟩ : ∃ n, l.length = n + 1 := by
      cases l with
      | nil => simp_all
      | cons a t => exact ⟨t.length, by simp⟩
    rw [hn]
    simp only [packLSBFirstAux, if_neg he, hn]
    congr 1
    exact packLSBFirstAux_irrel n (l.drop 8).length (l.drop 8) (by simp; omega) le_rfl

theorem bytesPart_nil : bytesPart [] = [] := rfl

theorem remPart_nil : remPart [] = [] := rfl

theorem bytesPart_of_length_eight (l : List Nat) (h : l.length = 8) :
    bytesPart l = [byteOfBits l] := by
  have hd : l.drop 8 = [] := List.drop_eq_nil_of_le (by omega)
  rw [bytesPart_eq, if_pos (by omega), hd, bytesPart_nil]

theorem packLSB_decomp (A : List Nat) :
    packLSBFirst A = bytesPart A ++
      (if (remPart A).isEmpty then []
       else [byteOfBits (remPart A ++ List.replicate (8 - (remPart A).length) 0)]) := by
  generalize hn : A.length = n
  induction n using Nat.strong_induction_on generalizing A with
  | _ n ih =>
    by_cases h8 : 8 ≤ A.length
    · have he : A.isEmpty = false := by
        cases A with
        | nil => simp at h8
        | cons a t => rfl
      have hrep : List.replicate (8 - A.length) (0 : Nat) = [] := by
        rw [show 8 - A.length = 0 by omega, List.replicate_zero]
      rw [packLSBFirst_eq, he, if_neg (by simp), hrep, List.append_nil,
        bytesPart_eq, if_pos h8, remPart_eq, if_pos h8,
        ih (A.length - 8) (by omega) (A.drop 8) (by simp [hn])]
      simp
    · by_cases he : A.isEmpty
      · have hA : A = [] := by cases A <;> simp_all
        subst hA
        rw [packLSBFirst_eq, bytesPart_nil, remPart_nil]
        simp
      · have hd : A.drop 8 = [] := List.drop_eq_nil_of_le (by omega)
        have hb : bytesPart A = [] := by rw [bytesPart_eq, if_neg h8]
        have hr : remPart A = A := by rw [remPart_eq, if_neg h8]
        rw [packLSBFirst_eq, if_neg he, hd, hb, hr, if_neg he]
        rw [packLSBFirst_eq]
        simp

theorem finishFlush_mkEnc (u : SpecSt) :
    finishFlush (mkEnc u) = packLSBFirst (allBits u.codes) := by
  unfold finishFlush
  have hc : (mkEnc u).chunkBits = remPart (allBits u.codes) := rfl
  have hres : (mkEnc u).result = bytesPart (allBits u.codes) := rfl
  rw [hc, hres, packLSB_decomp (allBits u.codes)]
  by_cases he : (remPart (allBits u.codes)).isEmpty
  · rw [if_pos he, if_pos he, List.append_nil]
  · rw [if_neg he, if_neg he, flushBits_spec]
    have hlen : (remPart (allBits u.codes) ++
        List.replicate (8 - (remPart (allBits u.codes)).length) (0 : Nat)).length = 8 := by
      have := remPart_length_lt (allBits u.codes)
      simp
      omega
    rw [bytesPart_of_length_eight _ hlen]

theorem lzwFinish_mkEnc (minBits : Nat) (t : SpecSt) :
    lzwFinish minBits (mkEnc t) =
      packLSBFirst (allBits
        ((emitCode
          (if t.pfx.isEmpty then t else emitCode t ((t.table.lookup t.pfx).getD 0))
          ((1 <<< minBits) + 1)).codes)) := by
  unfold lzwFinish
  have hs1 : (if (mkEnc t).pfx.isEmpty then mkEnc t
      else writeCodeSt (mkEnc t) (((mkEnc t).table.lookup (mkEnc t).pfx).getD 0)) =
      mkEnc (if t.pfx.isEmpty then t else emitCode t ((t.table.lookup t.pfx).getD 0)) := by
    by_cases hp : t.pfx.isEmpty
    · rw [if_pos (by simpa [mkEnc] using hp), if_pos hp]
    · rw [if_neg (by simpa [mkEnc] using hp), if_neg hp]
      exact writeCodeSt_mkEnc t _
  rw [hs1, writeCodeSt_mkEnc, finishFlush_mkEnc]

/-- The central refinement: `lzw_encode`, with its incremental bit-buffer
flushing, produces exactly the spec-side two-phase result (emit all codes,
then pack their bits LSB-first with final zero padding). -/
theorem lzwEncode_eq_spec (data : List Nat) (minBits : Nat) (h : ∀ b ∈ data, b < 256) :
    lzwEncode data minBits = Except.ok (lzwSpec data minBits) := by
  unfold lzwEncode lzwSpec specCodes
  rw [lzwInit_mkEnc, encodeLoop_mkEnc data _ h]
  simp only [Except.map]
  rw [lzwFinish_mkEnc]

/-! ### Success/failure characterisation of `lzw_encode` -/

theorem lzwStep_error (s : EncSt) (b : Nat) (h : 256 ≤ b) :
    lzwStep s b = Except.error () := by
  unfold lzwStep
  rw [if_pos h]

theorem lzwStep_ok (s : EncSt) (b : Nat) (h : b < 256) :
    ∃ s2, lzwStep s b = Except.ok s2 := by
  unfold lzwStep
  rw [if_neg (by omega)]
  by_cases hl : ((s.table.lookup (s.pfx ++ [b])).isSome : Prop)
  · exact ⟨_, by rw [if_pos hl]⟩
  · exact ⟨_, by rw [if_neg hl]⟩

theorem encodeLoop_ok_iff (data : List Nat) :
    ∀ s : EncSt, (∃ s2, encodeLoop s data = Except.ok s2) ↔ ∀ b ∈ data, b < 256 := by
  induction data with
  | nil => intro s; simp [encodeLoop]
  | cons b rest ih =>
    intro s
    by_cases hb : b < 256
    · obtain ⟨s1, hs1⟩ := lzwStep_ok s b hb
      simp only [encodeLoop, hs1]
      rw [ih s1]
      simp [hb]
    · simp only [encodeLoop, lzwStep_error s b (by omega)]
      simp [hb]

/-- `lzw_encode` succeeds exactly when every input byte is below 256 — the
only rejection it ever performs is the `ValueError` from `bytes([byte])`,
independently of `min_bits`. -/
theorem lzwEncode_ok_iff (data : List Nat) (minBits : Nat) :
    (∃ out, lzwEncode data minBits = Except.ok out) ↔ ∀ b ∈ data, b < 256 := by
  unfold lzwEncode
  rw [← encodeLoop_ok_iff data (lzwInit minBits)]
  constructor
  · rintro ⟨out, hout⟩
    cases he : encodeLoop (lzwInit minBits) data with
    | error e => rw [he] at hout; simp [Except.map] at hout
    | ok s2 => exact ⟨s2, rfl⟩
  · rintro ⟨s2, hs2⟩
    exact ⟨lzwFinish minBits s2, by rw [hs2]; rfl⟩

/-! ### The C4 invariants of one encode pass -/

@[simp] theorem writeCodeSt_table (s : EncSt) (c : Nat) : (writeCodeSt s c).table = s.table := rfl
@[simp] theorem writeCodeSt_pfx (s : EncSt) (c : Nat) : (writeCodeSt s c).pfx = s.pfx := rfl
@[simp] theorem writeCodeSt_nextCode (s : EncSt) (c : Nat) :
    (writeCodeSt s c).nextCode = s.nextCode := rfl
@[simp] theorem writeCodeSt_codeSize (s : EncSt) (c : Nat) :
    (writeCodeSt s c).codeSize = s.codeSize := rfl

/-- Explicit form of the dictionary-miss branch of the per-byte step. -/
theorem lzwStep_miss (s : EncSt) (b : Nat) (hb : ¬ 256 ≤ b)
    (hl : ¬ ((s.table.lookup (s.pfx ++ [b])).isSome : Prop)) :
    lzwStep s b = Except.ok
      (if s.nextCode ≤ 4095 then
        { s with
            pfx := [b]
            table := (s.pfx ++ [b], s.nextCode) :: s.table
            nextCode := s.nextCode + 1
            codeSize :=
              if 1 <<< s.codeSize < s.nextCode + 1 then min 12 (s.codeSize + 1)
              else s.codeSize
            result := (writeCodeSt s ((s.table.lookup s.pfx).getD 0)).result
            chunkBits := (writeCodeSt s ((s.table.lookup s.pfx).getD 0)).chunkBits }
      else
        { s with
            pfx := [b]
            result := (writeCodeSt s ((s.table.lookup s.pfx).getD 0)).result
            chunkBits := (writeCodeSt s ((s.table.lookup s.pfx).getD 0)).chunkBits }) := by
  unfold lzwStep
  rw [if_neg hb, if_neg hl]
  simp only [writeCodeSt_nextCode, writeCodeSt_table, writeCodeSt_pfx, writeCodeSt_codeSize]
  by_cases hn : s.nextCode ≤ 4095
  · rw [if_pos hn, if_pos hn]
  · rw [if_neg hn, if_neg hn]
    rfl

theorem encInv_init (mb : Nat) (h8 : 8 ≤ mb) (h11 : mb ≤ 11) : encInv mb (lzwInit mb) := by
  have hpow : (1 <<< mb) = 2 ^ mb := by simp [Nat.shiftLeft_eq]
  have hlo : 2 ^ 8 ≤ 2 ^ mb := Nat.pow_le_pow_right (by norm_num) h8
  have hhi : 2 ^ mb ≤ 2 ^ 11 := Nat.pow_le_pow_right (by norm_num) h11
  unfold encInv lzwInit
  simp only [writeCodeSt_table, writeCodeSt_nextCode, writeCodeSt_codeSize]
  refine ⟨le_rfl, by omega, le_rfl, by rw [hpow]; omega, by simp; omega, ?_⟩
  intro p hp
  simp only [List.mem_map, List.mem_range] at hp
  obtain ⟨i, hi, rfl⟩ := hp
  exact Or.inl hi

theorem encInv_step (mb : Nat) (s s2 : EncSt) (b : Nat)
    (hs : encInv mb s) (h : lzwStep s b = Except.ok s2) :
    encInv mb s2 ∧ s.codeSize ≤ s2.codeSize := by
  obtain ⟨h1, h2, h3, h4, h5, h6⟩ := hs
  by_cases hb : 256 ≤ b
  · rw [lzwStep_error s b hb] at h
    simp at h
  · by_cases hl : ((s.table.lookup (s.pfx ++ [b])).isSome : Prop)
    · have : lzwStep s b = Except.ok { s with pfx := s.pfx ++ [b] } := by
        unfold lzwStep
        rw [if_neg hb, if_pos hl]
      rw [this] at h
      obtain rfl : ({ s with pfx := s.pfx ++ [b] } : EncSt) = s2 := Except.ok.inj h
      exact ⟨⟨h1, h2, h3, h4, h5, h6⟩, le_rfl⟩
    · rw [lzwStep_miss s b hb hl] at h
      by_cases hn : s.nextCode ≤ 4095
      · rw [if_pos hn] at h
        obtain rfl := (Except.ok.inj h).symm
        refine ⟨⟨?_, ?_, ?_, ?_, ?_, ?_⟩, ?_⟩
        · simp only []
          split <;> omega
        · simp only []
          split <;> omega
        · simp only []
          omega
        · simp only []
          omega
        · simp only [List.length_cons]
          omega
        · intro p hp
          simp only [List.mem_cons] at hp
          rcases hp with rfl | hp
          · exact Or.inr ⟨by simpa using h3, by show s.nextCode < s.nextCode + 1; omega⟩
          · rcases h6 p hp with hlt | ⟨ha, hb2⟩
            · exact Or.inl hlt
            · exact Or.inr ⟨ha, by show p.2 < s.nextCode + 1; omega⟩
        · simp only []
          split <;> omega
      · rw [if_neg hn] at h
        obtain rfl := (Except.ok.inj h).symm
        exact ⟨⟨h1, h2, h3, h4, h5, h6⟩, le_rfl⟩

theorem encInv_loop (mb : Nat) (l : List Nat) :
    ∀ s s2 : EncSt, encInv mb s → encodeLoop s l = Except.ok s2 →
      encInv mb s2 ∧ s.codeSize ≤ s2.codeSize := by
  induction l with
  | nil =>
    intro s s2 hs h
    obtain rfl : s = s2 := Except.ok.inj h
    exact ⟨hs, le_rfl⟩
  | cons b rest ih =>
    intro s s2 hs h
    simp only [encodeLoop] at h
    cases hstep : lzwStep s b with
    | error e => rw [hstep] at h; simp at h
    | ok s1 =>
      rw [hstep] at h
      obtain ⟨hs1, hcs1⟩ := encInv_step mb s s1 b hs hstep
      obtain ⟨hs2, hcs2⟩ := ih s1 s2 hs1 h
      exact ⟨hs2, le_trans hcs1 hcs2⟩

theorem encodeLoop_append (l1 l2 : List Nat) :
    ∀ s : EncSt, encodeLoop s (l1 ++ l2) =
      match encodeLoop s l1 with
      | Except.error e => Except.error e
      | Except.ok s1 => encodeLoop s1 l2 := by
  induction l1 with
  | nil => intro s; rfl
  | cons b rest ih =>
    intro s
    simp only [List.cons_append, encodeLoop]
    cases hstep : lzwStep s b with
    | error e => rfl
    | ok s1 => exact ih s1

/-! ### Helper lemmas for the container writer -/

theorem rgb_flatMap_length (l : List (Nat × Nat × Nat)) :
    (l.flatMap (fun c => [c.1, c.2.1, c.2.2])).length = 3 * l.length := by
  induction l with
  | nil => rfl
  | cons c rest ih => simp [ih]; omega

theorem palBytes_length (palette : List (Nat × Nat × Nat)) :
    (palBytes palette).length = 768 := by
  unfold palBytes
  have hk : (palette.take 256).length ≤ 256 := by
    rw [List.length_take]; omega
  rw [List.length_append, rgb_flatMap_length, List.length_replicate]
  omega

theorem writeFrames_acc_le (w h d t : Nat) (frames : List (List (List Nat))) :
    ∀ acc : List Nat, acc.length ≤ (writeFrames w h d t frames acc).1.length := by
  induction frames with
  | nil => intro acc; exact le_rfl
  | cons frame rest ih =>
    intro acc
    simp only [writeFrames]
    cases hc : lzwEncode frame.flatten 8 with
    | error e => simp
    | ok compressed =>
      refine le_trans ?_ (ih (acc ++ gceBytes d t ++ imageDescriptor w h ++ [8]
        ++ subBlocks compressed ++ [0]))
      simp

theorem writeFrames_ok_iff (w h d t : Nat) (frames : List (List (List Nat))) :
    ∀ acc : List Nat,
      (writeFrames w h d t frames acc).2 = none ↔
        ∀ fr ∈ frames, ∀ b ∈ fr.flatten, b < 256 := by
  induction frames with
  | nil => intro acc; simp [writeFrames]
  | cons frame rest ih =>
    intro acc
    simp only [writeFrames]
    cases hc : lzwEncode frame.flatten 8 with
    | error e =>
      have hbad : ¬ ∀ b ∈ frame.flatten, b < 256 := by
        rw [← lzwEncode_ok_iff frame.flatten 8]
        rintro ⟨out, hout⟩
        rw [hc] at hout
        simp at hout
      simp only []
      constructor
      · intro hnone; simp at hnone
      · intro hall
        exact absurd (hall frame (by simp)) hbad
    | ok compressed =>
      have hgood : ∀ b ∈ frame.flatten, b < 256 := by
        rw [← lzwEncode_ok_iff frame.flatten 8]
        exact ⟨compressed, hc⟩
      simp only []
      rw [ih]
      constructor
      · intro hrest fr hfr
        rcases List.mem_cons.mp hfr with rfl | hfr
        · exact hgood
        · exact hrest fr hfr
      · intro hall fr hfr
        exact hall fr (by simp [hfr])

theorem writeFrames_err_last (w h d t : Nat) (frames : List (List (List Nat))) :
    ∀ acc : List Nat, (writeFrames w h d t frames acc).2 ≠ none →
      (writeFrames w h d t frames acc).1.getLast? = some 8 := by
  induction frames with
  | nil => intro acc hne; simp [writeFrames] at hne
  | cons frame rest ih =>
    intro acc hne
    simp only [writeFrames] at hne ⊢
    cases hc : lzwEncode frame.flatten 8 with
    | error e =>
      simp only []
      rw [show acc ++ gceBytes d t ++ imageDescriptor w h ++ [8]
        = (acc ++ gceBytes d t ++ imageDescriptor w h) ++ [8] by simp,
        List.getLast?_concat]
    | ok compressed =>
      rw [hc] at hne
      exact ih _ hne

theorem writeFrames_all_ok (w h d t : Nat) (frames : List (List (List Nat)))
    (hpix : ∀ fr ∈ frames, ∀ b ∈ fr.flatten, b < 256) :
    ∀ acc : List Nat,
      writeFrames w h d t frames acc =
        (acc ++ frames.flatMap (fun fr =>
          gceBytes d t ++ imageDescriptor w h ++ [8]
            ++ subBlocks (lzwSpec fr.flatten 8) ++ [0]), none) := by
  induction frames with
  | nil => intro acc; simp [writeFrames]
  | cons frame rest ih =>
    intro acc
    simp only [writeFrames]
    rw [lzwEncode_eq_spec frame.flatten 8 (hpix frame (by simp))]
    simp only []
    rw [ih (fun fr hfr => hpix fr (by simp [hfr]))]
    simp

/-! ### Sub-block structure -/

theorem subBlocksAux_irrel (f1 : Nat) :
    ∀ (f2 : Nat) (l : List Nat), l.length ≤ f1 → l.length ≤ f2 →
      subBlocksAux f1 l = subBlocksAux f2 l := by
  induction f1 with
  | zero =>
    intro f2 l h1 _
    have hl : l = [] := List.length_eq_zero.mp (Nat.le_zero.mp h1)
    subst hl
    cases f2 <;> simp [subBlocksAux]
  | succ f ih =>
    intro f2 l h1 h2
    cases f2 with
    | zero =>
      have hl : l = [] := List.length_eq_zero.mp (Nat.le_zero.mp h2)
      subst hl
      simp [subBlocksAux]
    | succ f2 =>
      simp only [subBlocksAux]
      by_cases h : l.isEmpty
      · rw [if_pos h, if_pos h]
      · have hne : l ≠ [] := by cases l <;> simp_all
        have hlen : 0 < l.length := List.length_pos.mpr hne
        rw [if_neg h, if_neg h,
          ih f2 (l.drop 255) (by simp; omega) (by simp; omega)]

theorem subBlocks_eq (l : List Nat) :
    subBlocks l =
      if l.isEmpty then []
      else (l.take 255).length :: (l.take 255 ++ subBlocks (l.drop 255)) := by
  by_cases he : l.isEmpty
  · have hl : l = [] := by cases l <;> simp_all
    subst hl
    simp [subBlocks, subBlocksAux]
  · rw [if_neg he]
    unfold subBlocks
    obtain ⟨n, hn⟩ : ∃ n, l.length = n + 1 := by
      cases l with
      | nil => simp_all
      | cons a t => exact ⟨t.length, by simp⟩
    rw [hn]
    simp only [subBlocksAux, if_neg he]
    have : subBlocksAux n (l.drop 255) = subBlocksAux (l.drop 255).length (l.drop 255) :=
      subBlocksAux_irrel n (l.drop 255).length (l.drop 255) (by simp; omega) le_rfl
    rw [this]

theorem blocks255Aux_irrel (f1 : Nat) :
    ∀ (f2 : Nat) (l : List Nat), l.length ≤ f1 → l.length ≤ f2 →
      blocks255Aux f1 l = blocks255Aux f2 l := by
  induction f1 with
  | zero =>
    intro f2 l h1 _
    have hl : l = [] := List.length_eq_zero.mp (Nat.le_zero.mp h1)
    subst hl
    cases f2 <;> simp [blocks255Aux]
  | succ f ih =>
    intro f2 l h1 h2
    cases f2 with
    | zero =>
      have hl : l = [] := List.length_eq_zero.mp (Nat.le_zero.mp h2)
      subst hl
      simp [blocks255Aux]
    | succ f2 =>
      simp only [blocks255Aux]
      by_cases h : l.isEmpty
      · rw [if_pos h, if_pos h]
      · have hne : l ≠ [] := by cases l <;> simp_all
        have hlen : 0 < l.length := List.length_pos.mpr hne
        rw [if_neg h, if_neg h,
          ih f2 (l.drop 255) (by simp; omega) (by simp; omega)]

theorem blocks255_eq (l : List Nat) :
    blocks255 l = if l.isEmpty then [] else l.take 255 :: blocks255 (l.drop 255) := by
  by_cases he : l.isEmpty
  · have hl : l = [] := by cases l <;> simp_all
    subst hl
    simp [blocks255, blocks255Aux]
  · rw [if_neg he]
    unfold blocks255
    obtain ⟨n, hn⟩ : ∃ n, l.length = n + 1 := by
      cases l with
      | nil => simp_all
      | cons a t => exact ⟨t.length, by simp⟩
    rw [hn]
    simp only [blocks255Aux, if_neg he]
    rw [blocks255Aux_irrel n (l.drop 255).length (l.drop 255) (by simp; omega) le_rfl]

theorem parseSubBlocksAux_irrel (f1 : Nat) :
    ∀ (f2 : Nat) (l : List Nat), l.length ≤ f1 → l.length ≤ f2 →
      parseSubBlocksAux f1 l = parseSubBlocksAux f2 l := by
  induction f1 with
  | zero =>
    intro f2 l h1 _
    have hl : l = [] := List.length_eq_zero.mp (Nat.le_zero.mp h1)
    subst hl
    cases f2 <;> simp [parseSubBlocksAux]
  | succ f ih =>
    intro f2 l h1 h2
    cases f2 with
    | zero =>
      have hl : l = [] := List.length_eq_zero.mp (Nat.le_zero.mp h2)
      subst hl
      simp [parseSubBlocksAux]
    | succ f2 =>
      cases l with
      | nil => rfl
      | cons hd rest =>
        cases hd with
        | zero => rfl
        | succ n =>
          simp only [parseSubBlocksAux]
          by_cases hr : rest.length < n + 1
          · rw [if_pos hr, if_pos hr]
          · rw [if_neg hr, if_neg hr,
              ih f2 (rest.drop (n + 1)) (by simp at h1 ⊢; omega) (by simp at h2 ⊢; omega)]

theorem parseSubBlocks_zero (rest : List Nat) :
    parseSubBlocks (0 :: rest) = if rest.isEmpty then some [] else none := rfl

theorem parseSubBlocks_cons (n : Nat) (rest : List Nat) :
    parseSubBlocks ((n + 1) :: rest) =
      if rest.length < n + 1 then none
      else (parseSubBlocks (rest.drop (n + 1))).map (fun bs => rest.take (n + 1) :: bs) := by
  unfold parseSubBlocks
  simp only [List.length_cons, parseSubBlocksAux]
  by_cases hr : rest.length < n + 1
  · rw [if_pos hr, if_pos hr]
  · rw [if_neg hr, if_neg hr,
      parseSubBlocksAux_irrel rest.length (rest.drop (n + 1)).length (rest.drop (n + 1))
        (by simp) le_rfl]

theorem blocks255_props (c : List Nat) :
    (∀ b ∈ blocks255 c, b ≠ [] ∧ b.length ≤ 255) ∧ (blocks255 c).flatten = c := by
  generalize hn : c.length = n
  induction n using Nat.strong_induction_on generalizing c with
  | _ n ih =>
    by_cases he : c.isEmpty
    · have hc : c = [] := by cases c <;> simp_all
      subst hc
      rw [blocks255_eq]
      simp
    · have hne : c ≠ [] := by cases c <;> simp_all
      have hlen : 0 < c.length := List.length_pos.mpr hne
      rw [blocks255_eq, if_neg he]
      obtain ⟨ihb, ihf⟩ := ih (c.length - 255) (by omega) (c.drop 255) (by simp [hn])
      constructor
      · intro b hb
        rcases List.mem_cons.mp hb with rfl | hb
        · refine ⟨?_, by rw [List.length_take]; omega⟩
          intro hnil
          have hlt := congrArg List.length hnil
          rw [List.length_take] at hlt
          simp only [List.length_nil] at hlt
          omega
        · exact ihb b hb
      · simp only [List.flatten_cons, ihf]
        exact List.take_append_drop 255 c

theorem parse_subBlocks (c : List Nat) :
    parseSubBlocks (subBlocks c ++ [0]) = some (blocks255 c) := by
  generalize hn : c.length = n
  induction n using Nat.strong_induction_on generalizing c with
  | _ n ih =>
    by_cases he : c.isEmpty
    · have hc : c = [] := by cases c <;> simp_all
      subst hc
      rw [subBlocks_eq, blocks255_eq]
      simp [parseSubBlocks_zero]
    · have hne : c ≠ [] := by cases c <;> simp_all
      have hlen : 0 < c.length := List.length_pos.mpr hne
      have htne : (c.take 255).length = min 255 c.length := List.length_take 255 c
      obtain ⟨m, hm⟩ : ∃ m, (c.take 255).length = m + 1 := by
        rw [htne]; exact ⟨min 255 c.length - 1, by omega⟩
      rw [subBlocks_eq, if_neg he, blocks255_eq, if_neg he]
      have hassoc : ((c.take 255).length :: (c.take 255 ++ subBlocks (c.drop 255))) ++ [0]
          = (c.take 255).length :: (c.take 255 ++ (subBlocks (c.drop 255) ++ [0])) := by
        simp
      rw [hassoc, hm, parseSubBlocks_cons]
      have hrlen : ¬ (c.take 255 ++ (subBlocks (c.drop 255) ++ [0])).length < m + 1 := by
        rw [List.length_append, ← hm]
        omega
      rw [if_neg hrlen, ← hm, List.take_left, List.drop_left,
        ih (c.length - 255) (by omega) (c.drop 255) (by simp [hn])]
      rfl

theorem blocks255_two_of_long (c : List Nat) (h : 255 < c.length) :
    2 ≤ (blocks255 c).length := by
  have hne : ¬ c.isEmpty := by cases c <;> simp_all
  have hdne : ¬ (c.drop 255).isEmpty := by
    have : 0 < (c.drop 255).length := by simp; omega
    cases hd : c.drop 255 with
    | nil => rw [hd] at this; simp at this
    | cons a t => simp
  rw [blocks255_eq, if_neg hne, blocks255_eq, if_neg hdne]
  simp

/-! ### Last helpers for the claim theorems -/

theorem rows_lt_iff_flatten (fr : List (List Nat)) :
    (∀ b ∈ fr.flatten, b < 256) ↔ (∀ row ∈ fr, ∀ p ∈ row, p < 256) := by
  constructor
  · intro h row hr p hp
    exact h p (List.mem_flatten.mpr ⟨row, hr, hp⟩)
  · intro h b hb
    obtain ⟨row, hr, hb⟩ := List.mem_flatten.mp hb
    exact h row hr b hb

theorem frames_lt_iff (fs : List (List (List Nat))) :
    (∀ fr ∈ fs, ∀ b ∈ fr.flatten, b < 256) ↔
      (∀ fr ∈ fs, ∀ row ∈ fr, ∀ p ∈ row, p < 256) := by
  constructor
  · intro h fr hfr
    exact (rows_lt_iff_flatten fr).mp (h fr hfr)
  · intro h fr hfr
    exact (rows_lt_iff_flatten fr).mpr (h fr hfr)

theorem header_length (w h : Nat) (pal : List (Nat × Nat × Nat)) :
    ([71, 73, 70, 56, 57, 97] ++ pack16 w ++ pack16 h ++ [0xF7, 0, 0]
      ++ palBytes pal ++ netscapeExt).length = 800 := by
  simp [pack16, netscapeExt, palBytes_length]

theorem palBytes_take (pal : List (Nat × Nat × Nat)) :
    palBytes (pal.take 256) = palBytes pal := by
  unfold palBytes
  rw [List.take_take]
  norm_num

theorem getD_replicate_zero (n j : Nat) :
    (List.replicate n (0 : Nat)).getD j 0 = 0 := by
  induction n generalizing j with
  | zero => simp
  | succ m ih =>
    cases j with
    | zero => simp [List.replicate_succ]
    | succ i => simp [List.replicate_succ]

/-! ## The claims -/

set_option maxRecDepth 2000000

/-- C3: for every input byte sequence (of valid bytes), `lzw_encode` is the
LSB-first bit packing — flushing each completed byte, emitting the code of
any pending non-empty prefix and then `endCode` at end of input, and
zero-padding the final partial byte — of the code stream described by
`specCodes`. -/
theorem lzwEncode_bitstream_refinement (data : List Nat) (minBits : Nat)
    (h : ∀ b ∈ data, b < 256) :
    lzwEncode data minBits = Except.ok (lzwSpec data minBits) :=
  lzwEncode_eq_spec data minBits h

/-- Witness for C3 at a concrete input. -/
theorem lzwEncode_bitstream_refinement_witness :
    (∀ b ∈ [1, 1, 1, 2], b < 256) ∧
      lzwEncode [1, 1, 1, 2] 8 = Except.ok (lzwSpec [1, 1, 1, 2] 8) :=
  ⟨by decide, lzwEncode_bitstream_refinement [1, 1, 1, 2] 8 (by decide)⟩

/-- C4: throughout one `lzw_encode` pass (for a GIF-legal `minBits`, as in
the program's only call `min_bits=8`), the code width is monotonically
non-decreasing and stays within `[minBits+1, 12]`, the code table plus the
two reserved control codes never exceeds 4096 entries, and `clearCode` and
`endCode` are never assigned as dictionary entries. -/
theorem lzw_pass_invariants (data : List Nat) (mb n m : Nat)
    (h8 : 8 ≤ mb) (h11 : mb ≤ 11) (hnm : n ≤ m) :
    okPair (encodeLoop (lzwInit mb) (data.take n)) (encodeLoop (lzwInit mb) (data.take m))
      (fun s s2 =>
        s.codeSize ≤ s2.codeSize ∧
        mb + 1 ≤ s2.codeSize ∧ s2.codeSize ≤ 12 ∧
        s2.table.length + 2 ≤ 4096 ∧
        ∀ p ∈ s2.table, p.2 ≠ 1 <<< mb ∧ p.2 ≠ (1 <<< mb) + 1) := by
  cases hx : encodeLoop (lzwInit mb) (data.take n) with
  | error e =>
    cases hy : encodeLoop (lzwInit mb) (data.take m) with
    | error e2 => trivial
    | ok s2 => trivial
  | ok s =>
    cases hy : encodeLoop (lzwInit mb) (data.take m) with
    | error e2 => trivial
    | ok s2 =>
      show s.codeSize ≤ s2.codeSize ∧ mb + 1 ≤ s2.codeSize ∧ s2.codeSize ≤ 12 ∧
        s2.table.length + 2 ≤ 4096 ∧
        ∀ p ∈ s2.table, p.2 ≠ 1 <<< mb ∧ p.2 ≠ (1 <<< mb) + 1
      have htake : data.take m = data.take n ++ (data.drop n).take (m - n) := by
        rw [← List.take_add]
        congr 1
        omega
      have hy2 : encodeLoop s ((data.drop n).take (m - n)) = Except.ok s2 := by
        rw [htake, encodeLoop_append, hx] at hy
        exact hy
      obtain ⟨hs, _⟩ := encInv_loop mb (data.take n) (lzwInit mb) s (encInv_init mb h8 h11) hx
      obtain ⟨hs2, hmono⟩ := encInv_loop mb _ s s2 hs hy2
      obtain ⟨i1, i2, i3, i4, i5, i6⟩ := hs2
      have hpow : (1 <<< mb) = 2 ^ mb := by simp [Nat.shiftLeft_eq]
      have hlo : 2 ^ 8 ≤ 2 ^ mb := Nat.pow_le_pow_right (by norm_num) h8
      refine ⟨hmono, i1, i2, by omega, ?_⟩
      intro p hp
      rcases i6 p hp with hlt | ⟨ha, _⟩
      · constructor <;> omega
      · constructor <;> omega

/-- Witness for C4 at a concrete input. -/
theorem lzw_pass_invariants_witness :
    okPair (encodeLoop (lzwInit 8) ([1, 2].take 1)) (encodeLoop (lzwInit 8) ([1, 2].take 2))
      (fun s s2 =>
        s.codeSize ≤ s2.codeSize ∧
        8 + 1 ≤ s2.codeSize ∧ s2.codeSize ≤ 12 ∧
        s2.table.length + 2 ≤ 4096 ∧
        ∀ p ∈ s2.table, p.2 ≠ 1 <<< 8 ∧ p.2 ≠ (1 <<< 8) + 1) :=
  lzw_pass_invariants [1, 2] 8 1 2 (by decide) (by decide) (by decide)

/-- C6 counterexample: with `minBits = 2` the byte 5 lies outside
`[0, 2^minBits)`, yet `lzw_encode` accepts it and returns a payload instead
of rejecting it (its table is seeded with all 256 single-byte strings
regardless of `minBits`). -/
theorem lzwEncode_accepts_out_of_range :
    lzwEncode [5] 2 = Except.ok [108, 1] ∧ ¬ (5 < 2 ^ 2) := by
  constructor
  · decide
  · decide

/-- C6 (amended): `lzw_encode` performs no `minBits`-dependent validation:
it succeeds exactly when every input byte is below 256 (bytes ≥ 256 fail
only through the `ValueError` of `bytes([byte])`). -/
theorem lzw_no_range_validation (data : List Nat) (minBits : Nat) :
    (∃ out, lzwEncode data minBits = Except.ok out) ↔ ∀ b ∈ data, b < 256 :=
  lzwEncode_ok_iff data minBits

/-- C9: `write_gif` silently truncates a palette to its first 256 entries
(the output stream, error behaviour included, is identical to the one for
the 256-entry prefix), the colour table is always 768 bytes, and bytes past
the supplied entries are zero padding. -/
theorem writeGif_palette_truncation (frames : List (List (List Nat)))
    (pal : List (Nat × Nat × Nat)) (d t : Nat) :
    writeGif frames pal d t = writeGif frames (pal.take 256) d t ∧
    (palBytes pal).length = 768 ∧
    (∀ i, 3 * (pal.take 256).length ≤ i → (palBytes pal).getD i 0 = 0) := by
  refine ⟨?_, palBytes_length pal, ?_⟩
  · cases frames with
    | nil => rfl
    | cons f0 rest =>
      cases f0 with
      | nil => rfl
      | cons r0 rows =>
        simp only [writeGif, palBytes_take]
  · intro i hi
    unfold palBytes
    rw [List.getD_append_right _ _ _ _ (by rw [rgb_flatMap_length]; omega),
      getD_replicate_zero]

/-- Witness for C9 at a concrete short palette. -/
theorem writeGif_palette_truncation_witness :
    writeGif [[[0]]] [(1, 2, 3)] 83 0 = writeGif [[[0]]] ([(1, 2, 3)].take 256) 83 0 ∧
    (palBytes [(1, 2, 3)]).length = 768 ∧
    (palBytes [(1, 2, 3)]).getD 5 0 = 0 :=
  ⟨(writeGif_palette_truncation [[[0]]] [(1, 2, 3)] 83 0).1,
   (writeGif_palette_truncation [[[0]]] [(1, 2, 3)] 83 0).2.1,
   (writeGif_palette_truncation [[[0]]] [(1, 2, 3)] 83 0).2.2 5 (by decide)⟩

/-- C5: each frame's compressed payload is written as length-prefixed
sub-blocks — every block non-empty and at most 255 bytes, at least two
blocks whenever the payload exceeds 255 bytes — followed by exactly one
zero-length terminator, and a decoder reading the section recovers the
payload exactly. -/
theorem subBlocks_chunking (c : List Nat) (w h d t : Nat) (frame : List (List Nat))
    (rest : List (List (List Nat))) (acc : List Nat)
    (hc : lzwEncode frame.flatten 8 = Except.ok c) :
    writeFrames w h d t (frame :: rest) acc
      = writeFrames w h d t rest
          (acc ++ gceBytes d t ++ imageDescriptor w h ++ [8] ++ subBlocks c ++ [0]) ∧
    parseSubBlocks (subBlocks c ++ [0]) = some (blocks255 c) ∧
    (∀ b ∈ blocks255 c, b ≠ [] ∧ b.length ≤ 255) ∧
    (blocks255 c).flatten = c ∧
    (255 < c.length → 2 ≤ (blocks255 c).length) := by
  refine ⟨?_, parse_subBlocks c, (blocks255_props c).1, (blocks255_props c).2,
    blocks255_two_of_long c⟩
  simp only [writeFrames, hc]

/-- Witness for C5 at a concrete frame. -/
theorem subBlocks_chunking_witness :
    lzwEncode [[1]].flatten 8 = Except.ok [0, 3, 4, 4] ∧
    (writeFrames 1 1 83 0 [[[1]]] []
      = writeFrames 1 1 83 0 []
          ([] ++ gceBytes 83 0 ++ imageDescriptor 1 1 ++ [8] ++ subBlocks [0, 3, 4, 4] ++ [0]) ∧
     parseSubBlocks (subBlocks [0, 3, 4, 4] ++ [0]) = some (blocks255 [0, 3, 4, 4]) ∧
     (∀ b ∈ blocks255 [0, 3, 4, 4], b ≠ [] ∧ b.length ≤ 255) ∧
     (blocks255 [0, 3, 4, 4]).flatten = [0, 3, 4, 4] ∧
     (255 < ([0, 3, 4, 4] : List Nat).length → 2 ≤ (blocks255 [0, 3, 4, 4]).length)) :=
  ⟨by decide, subBlocks_chunking [0, 3, 4, 4] 1 1 83 0 [[1]] [] [] (by decide)⟩

/-- C10: for a non-empty frame list (with a non-empty first frame, which the
source needs in order to read `frames[0][0]`), `write_gif` takes the height
and width from the first frame only, writes them into the logical screen
descriptor and into every frame's image descriptor, rejects nothing, and
encodes each frame's full flattened pixel data regardless of that frame's
own dimensions. -/
theorem writeGif_dims_from_first_frame (frames : List (List (List Nat)))
    (pal : List (Nat × Nat × Nat)) (d t : Nat)
    (hne : frames ≠ []) (hrow : frames.headD [] ≠ [])
    (hpix : ∀ fr ∈ frames, ∀ row ∈ fr, ∀ p ∈ row, p < 256) :
    writeGif frames pal d t =
      ([71, 73, 70, 56, 57, 97]
        ++ pack16 ((frames.headD []).headD []).length
        ++ pack16 (frames.headD []).length
        ++ [0xF7, 0, 0] ++ palBytes pal ++ netscapeExt
        ++ frames.flatMap (fun fr =>
            gceBytes d t
              ++ imageDescriptor ((frames.headD []).headD []).length (frames.headD []).length
              ++ [8] ++ subBlocks (lzwSpec fr.flatten 8) ++ [0])
        ++ [0x3B], none) := by
  cases frames with
  | nil => exact absurd rfl hne
  | cons f0 rest =>
    cases f0 with
    | nil => simp at hrow
    | cons r0 rows =>
      have hpix' : ∀ fr ∈ (r0 :: rows) :: rest, ∀ b ∈ fr.flatten, b < 256 :=
        (frames_lt_iff _).mpr hpix
      simp only [writeGif, List.headD_cons]
      rw [writeFrames_all_ok r0.length (r0 :: rows).length d t _ hpix']

/-- C7 (amended): `write_gif` performs no upfront palette-index validation:
it succeeds if and only if every frame index is below 256 (whatever the
palette length — out-of-palette indices below 256 are silently encoded),
and when it does fail, at least the 800 header/colour-table/loop-extension
bytes have already been emitted. -/
theorem writeGif_no_upfront_validation (frames : List (List (List Nat)))
    (pal : List (Nat × Nat × Nat)) (d t : Nat)
    (hne : frames ≠ []) (hrow : frames.headD [] ≠ []) :
    ((writeGif frames pal d t).2 = none ↔
      ∀ fr ∈ frames, ∀ row ∈ fr, ∀ p ∈ row, p < 256) ∧
    ((writeGif frames pal d t).2 ≠ none → 800 ≤ (writeGif frames pal d t).1.length) := by
  cases frames with
  | nil => exact absurd rfl hne
  | cons f0 rest =>
    cases f0 with
    | nil => simp at hrow
    | cons r0 rows =>
      simp only [writeGif]
      set hdr := [71, 73, 70, 56, 57, 97] ++ pack16 r0.length ++ pack16 (r0 :: rows).length
        ++ [0xF7, 0, 0] ++ palBytes pal ++ netscapeExt with hhdr
      have hlen : hdr.length = 800 := by rw [hhdr]; exact header_length _ _ pal
      cases hres : writeFrames r0.length (r0 :: rows).length d t ((r0 :: rows) :: rest) hdr with
      | mk bs err =>
        cases err with
        | none =>
          refine ⟨⟨fun _ => ?_, fun _ => rfl⟩, fun hcon => absurd rfl hcon⟩
          have hok : ∀ fr ∈ (r0 :: rows) :: rest, ∀ b ∈ fr.flatten, b < 256 := by
            rw [← writeFrames_ok_iff r0.length (r0 :: rows).length d t ((r0 :: rows) :: rest) hdr,
              hres]
          exact (frames_lt_iff _).mp hok
        | some e =>
          constructor
          · constructor
            · intro hno; simp at hno
            · intro hall
              exfalso
              have := (writeFrames_ok_iff r0.length (r0 :: rows).length d t
                ((r0 :: rows) :: rest) hdr).mpr ((frames_lt_iff _).mpr hall)
              rw [hres] at this
              simp at this
          · intro _
            have hle := writeFrames_acc_le r0.length (r0 :: rows).length d t
              ((r0 :: rows) :: rest) hdr
            rw [hres, hlen] at hle
            exact hle

/-- Witness for C7's amended theorem at a concrete animation. -/
theorem writeGif_no_upfront_validation_witness :
    (((writeGif [[[1]]] testPalette 83 0).2 = none ↔
        ∀ fr ∈ [[[1]]], ∀ row ∈ fr, ∀ p ∈ row, p < 256) ∧
      ((writeGif [[[1]]] testPalette 83 0).2 ≠ none →
        800 ≤ (writeGif [[[1]]] testPalette 83 0).1.length)) :=
  writeGif_no_upfront_validation [[[1]]] testPalette 83 0 (by decide) (by decide)

/-- C7 counterexample: a frame whose only pixel is the out-of-range index
256 makes `write_gif` fail, but only after 820 bytes (header, colour table,
loop extension, control block, image descriptor and code-size byte) were
already emitted — not before any bytes, as the claim demands. -/
theorem writeGif_emits_before_failing :
    (writeGif [[[256]]] testPalette 83 0).2 ≠ none ∧
    (writeGif [[[256]]] testPalette 83 0).1.length = 820 := by
  constructor
  · decide
  · decide

/-- C8 (amended): an encode that fails during frame processing leaves the
partially written stream on the sink — it is non-empty and ends with the
LZW minimum-code-size byte 8 rather than the trailer `;`; nothing is
discarded or truncated. -/
theorem writeGif_error_leaves_partial_output (frames : List (List (List Nat)))
    (pal : List (Nat × Nat × Nat)) (d t : Nat)
    (hne : frames ≠ []) (hrow : frames.headD [] ≠ [])
    (herr : (writeGif frames pal d t).2 ≠ none) :
    (writeGif frames pal d t).1 ≠ [] ∧
    (writeGif frames pal d t).1.getLast? = some 8 := by
  cases frames with
  | nil => exact absurd rfl hne
  | cons f0 rest =>
    cases f0 with
    | nil => simp at hrow
    | cons r0 rows =>
      simp only [writeGif] at herr ⊢
      set hdr := [71, 73, 70, 56, 57, 97] ++ pack16 r0.length ++ pack16 (r0 :: rows).length
        ++ [0xF7, 0, 0] ++ palBytes pal ++ netscapeExt with hhdr
      have hlen : hdr.length = 800 := by rw [hhdr]; exact header_length _ _ pal
      cases hres : writeFrames r0.length (r0 :: rows).length d t ((r0 :: rows) :: rest) hdr with
      | mk bs err =>
        rw [hres] at herr
        cases err with
        | none => exact absurd rfl herr
        | some e =>
          have hle := writeFrames_acc_le r0.length (r0 :: rows).length d t
            ((r0 :: rows) :: rest) hdr
          have hlast := writeFrames_err_last r0.length (r0 :: rows).length d t
            ((r0 :: rows) :: rest) hdr (by rw [hres]; simp)
          rw [hres, hlen] at hle
          rw [hres] at hlast
          refine ⟨?_, hlast⟩
          intro hnil
          rw [hnil] at hle
          simp at hle

/-- Witness for C8's amended theorem at a concrete failing animation. -/
theorem writeGif_error_leaves_partial_output_witness :
    (writeGif [[[256]]] testPalette 83 0).1 ≠ [] ∧
    (writeGif [[[256]]] testPalette 83 0).1.getLast? = some 8 :=
  writeGif_error_leaves_partial_output [[[256]]] testPalette 83 0
    (by decide) (by decide) (by decide)

/-- C8 counterexample: the same failing encode leaves a non-empty,
trailer-less (hence structurally invalid) byte stream on the sink instead
of discarding or truncating it. -/
theorem writeGif_partial_artifact_remains :
    (writeGif [[[256]]] testPalette 83 0).2 ≠ none ∧
    (writeGif [[[256]]] testPalette 83 0).1 ≠ [] ∧
    (writeGif [[[256]]] testPalette 83 0).1.getLast? ≠ some 0x3B := by
  refine ⟨by decide, by decide, by decide⟩

/-- C1: the graphic control extension's packed byte written for every frame
is `0x02`; under the GIF89a field layout that byte carries disposal method
0 (not 2, "restore to background") and transparent-colour flag 0 (not 1) —
the code's own comment claims disposal 2 with transparency, so the packed
byte is wrong. -/
theorem writeGif_gce_packed_byte :
    (writeGif [[[1]]] testPalette 83 0).1.getD 803 0 = 2 ∧
    gceDisposal ((writeGif [[[1]]] testPalette 83 0).1.getD 803 0) ≠ 2 ∧
    gceTransparentFlag ((writeGif [[[1]]] testPalette 83 0).1.getD 803 0) ≠ 1 := by
  refine ⟨by decide, by decide, by decide⟩

/-- C2: the 16-bit little-endian delay field of the graphic control
extension receives the raw `duration_ms` value — for the configured 83 ms
per-frame duration it holds 83, not the 8 centiseconds the claim (and the
delay field's unit) requires. -/
theorem writeGif_delay_field_raw_ms :
    (writeGif [[[1]]] testPalette 83 0).1.getD 804 0
        + 256 * (writeGif [[[1]]] testPalette 83 0).1.getD 805 0 = 83 ∧
    (83 : Nat) ≠ 8 := by
  refine ⟨by decide, by decide⟩

/-- Witness for C10: the second frame has different dimensions from the
first yet is encoded against the first frame's dimensions. -/
theorem writeGif_dims_from_first_frame_witness :
    writeGif [[[1]], [[2, 3], [4, 5]]] [] 7 3 =
      ([71, 73, 70, 56, 57, 97]
        ++ pack16 (([[[1]], [[2, 3], [4, 5]]].headD []).headD []).length
        ++ pack16 ([[[1]], [[2, 3], [4, 5]]].headD []).length
        ++ [0xF7, 0, 0] ++ palBytes [] ++ netscapeExt
        ++ [[[1]], [[2, 3], [4, 5]]].flatMap (fun fr =>
            gceBytes 7 3
              ++ imageDescriptor (([[[1]], [[2, 3], [4, 5]]].headD []).headD []).length
                  ([[[1]], [[2, 3], [4, 5]]].headD []).length
              ++ [8] ++ subBlocks (lzwSpec fr.flatten 8) ++ [0])
        ++ [0x3B], none) :=
  writeGif_dims_from_first_frame [[[1]], [[2, 3], [4, 5]]] [] 7 3
    (by decide) (by decide) (by decide)

end GifWriter
